import Mathlib

/-!
Verification of the seat-simulation program (Advent of Code 2020 day 11,
file src/aoc2020/src/day11.rs) against its natural-language specification.

The Rust source is shallowly embedded: pure functions become Lean
functions; `panic!` and out-of-bounds aborts are modelled with `Option`
(`none` = abort); the unbounded `while` loop inside the line-of-sight
neighbour search and the unbounded recursion of the driver `rec` are
modelled with explicit fuel (the fuel for the directional walk,
width + height, is proved sufficient below; the driver fuel 10000 is the
generation cap named by the specification).
-/

namespace Day11

/-- Cell states, mirroring `enum Seat { Floor, Empty, Occupied }`. -/
inductive Seat where
  | Floor
  | Empty
  | Occupied
deriving DecidableEq, Repr

/-- `type Layout = Vec<Vec<Seat>>`. -/
abbrev Layout := List (List Seat)

/-- `struct State { seats, height, width, changes }`. -/
structure State where
  seats : Layout
  height : Nat
  width : Nat
  changes : Nat
deriving DecidableEq, Repr

/-- `struct Position { x: isize, y: isize }`. -/
structure Position where
  x : Int
  y : Int
deriving DecidableEq, Repr

/-- `enum Depth { Inf, Next }`: the rule mode (Inf = line of sight, Next = adjacent). -/
inductive Depth where
  | Inf
  | Next
deriving DecidableEq, Repr

/-- `Seat::from(c: char)`: the source panics on a character outside the
three-symbol alphabet; the panic is modelled as `none`. -/
def Seat.fromChar (c : Char) : Option Seat :=
  match c with
  | '.' => some Seat.Floor
  | 'L' => some Seat.Empty
  | '#' => some Seat.Occupied
  | _ => none

/-- `State::new(seats)`: `seats[0]` panics on an empty layout (modelled as
`none`); width is taken from the first row, with no rectangularity check. -/
def State.new (seats : Layout) : Option State :=
  match seats with
  | [] => none
  | r :: _ => some { seats := seats, height := seats.length, width := r.length, changes := 0 }

/-- Indexing `seats[y][x]` at usize indices; out-of-range reads (which would
panic in Rust and are always guarded by `in_bounds` in the source) default
to `Floor`. -/
def State.cellAt (s : State) (y x : Nat) : Seat :=
  (s.seats.getD y []).getD x Seat.Floor

/-- Indexing `self.seats[p.y as usize][p.x as usize]`. -/
def State.seatAt (s : State) (y x : Int) : Seat :=
  s.cellAt y.toNat x.toNat

/-- The closure `in_bounds = |x, y| x >= 0 && x < width && y >= 0 && y < height`. -/
def State.inBounds (s : State) (x y : Int) : Bool :=
  decide (0 ≤ x) && decide (x < (s.width : Int)) && decide (0 ≤ y) && decide (y < (s.height : Int))

/-- The direction array `dirs` of `next_seat`, in source order. -/
def dirs : List (Int × Int) :=
  [(-1, -1), (-1, 0), (-1, 1), (0, -1), (0, 1), (1, -1), (1, 0), (1, 1)]

/-- The `while depth == Depth::Inf && in_bounds(..) && seats[..] == Floor`
loop of `next_seat`, with explicit fuel (the loop in the source is
unbounded; fuel `width + height` is proved sufficient below). -/
def State.walk (s : State) (dx dy : Int) : Nat → Position → Position
  | 0, p => p
  | fuel + 1, p =>
    if s.inBounds p.x p.y && decide (s.seatAt p.y p.x = Seat.Floor)
    then s.walk dx dy fuel { x := p.x + dx, y := p.y + dy }
    else p

/-- One direction probe: for `Depth::Next` the while loop never runs; for
`Depth::Inf` it walks over floor cells. -/
def State.probe (s : State) (depth : Depth) (dx dy : Int) (p : Position) : Position :=
  match depth with
  | Depth.Next => p
  | Depth.Inf => s.walk dx dy (s.width + s.height) p

/-- The body of the fold over `dirs` in `next_seat`: whether one direction
contributes 1 to the neighbour count. -/
def State.dirContrib (s : State) (pos : Position) (depth : Depth) (d : Int × Int) : Bool :=
  let p := s.probe depth d.1 d.2 { x := pos.x + d.1, y := pos.y + d.2 }
  s.inBounds p.x p.y && decide (s.seatAt p.y p.x = Seat.Occupied)

/-- The fold `dirs.iter().fold(0, ...)` computing `count` in `next_seat`. -/
def State.countOccAround (s : State) (pos : Position) (depth : Depth) : Nat :=
  dirs.foldl (fun acc d => if s.dirContrib pos depth d then acc + 1 else acc) 0

/-- The vacate threshold `cond` of `next_seat`: 5 for `Inf`, 4 for `Next`. -/
def Depth.cond : Depth → Nat
  | Depth.Inf => 5
  | Depth.Next => 4

/-- `State::next_seat`: the per-cell transition. -/
def State.next_seat (s : State) (pos : Position) (depth : Depth) : Seat :=
  let count := s.countOccAround pos depth
  let cond := depth.cond
  match s.seatAt pos.y pos.x with
  | Seat.Empty => if count = 0 then Seat.Occupied else Seat.Empty
  | Seat.Occupied => if cond ≤ count then Seat.Empty else Seat.Occupied
  | Seat.Floor => Seat.Floor

/-- The body of the inner fold of `State::update` (one cell of row `y`):
compute `next_seat` from the old state `s`, compare with the buffered cell
before overwriting it, and add 1 to the change counter if it differs. -/
def State.innerStep (s : State) (depth : Depth) (y : Nat) (acc2 : Layout × Nat) (x : Nat) :
    Layout × Nat :=
  let seat := s.next_seat { x := (x : Int), y := (y : Int) } depth
  let change : Nat := if seat ≠ (acc2.1.getD y []).getD x Seat.Floor then 1 else 0
  (acc2.1.set y ((acc2.1.getD y []).set x seat), acc2.2 + change)

/-- The body of the outer fold of `State::update` (one row): the inner
change counter starts at 0 and its total is added to the outer counter. -/
def State.outerStep (s : State) (depth : Depth) (acc : Layout × Nat) (y : Nat) :
    Layout × Nat :=
  let inner := (List.range s.width).foldl (s.innerStep depth y) (acc.1, 0)
  (inner.1, inner.2 + acc.2)

/-- `State::update`: copies the seat buffer, then the double fold over
`0..height`, `0..width` writes `next_seat` (read from the old state `s`)
into the copy, counting cells whose value changed. -/
def State.update (s : State) (depth : Depth) : State :=
  let res := (List.range s.height).foldl (s.outerStep depth) (s.seats, (0 : Nat))
  { seats := res.1, height := s.height, width := s.width, changes := res.2 }

/-- `State::count_occupied`. -/
def State.count_occupied (s : State) : Nat :=
  s.seats.foldl (fun acc row =>
    acc + row.foldl (fun acc2 c => acc2 + if c = Seat.Occupied then 1 else 0) 0) 0

/-- Splitting a character list at every newline (naive split: a trailing
newline yields a trailing empty segment). -/
def splitAll (l : List Char) : List (List Char) :=
  let r := l.foldr (fun c acc =>
    if c = '\n' then ([], acc.1 :: acc.2) else (c :: acc.1, acc.2)) ([], [])
  r.1 :: r.2

/-- Rust `str::lines`: split at newlines, with no final empty line for a
trailing newline and no lines at all for the empty string. -/
def rustLines (l : List Char) : List (List Char) :=
  let parts := splitAll l
  if parts.getLast? = some [] then parts.dropLast else parts

/-- Rust `str::trim` on a character list. -/
def trimChars (l : List Char) : List Char :=
  ((l.dropWhile Char.isWhitespace).reverse.dropWhile Char.isWhitespace).reverse

/-- Effectful map over a list in the `Option` monad, stopping at the first
`none`: models `.map(Seat::from).collect()` where `Seat::from` may panic. -/
def traverseOpt (f : α → Option β) : List α → Option (List β)
  | [] => some []
  | a :: l =>
    match f a with
    | none => none
    | some b =>
      match traverseOpt f l with
      | none => none
      | some bs => some (b :: bs)

/-- `gen(input)`: lines, trim each, map chars through `Seat::from`, then
`State::new`; any panic surfaces as `none`. -/
def gen (input : String) : Option State :=
  (traverseOpt (fun line => traverseOpt Seat.fromChar (trimChars line))
      (rustLines input.data)).bind State.new

/-- `rec(state, depth)` with explicit fuel: update once; if no cell
changed, return the occupied count, else recurse. The source recursion is
unbounded; `none` models non-termination within the fuel. -/
def recFuel : Nat → State → Depth → Option Nat
  | 0, _, _ => none
  | fuel + 1, s, d =>
    let s2 := s.update d
    if s2.changes = 0 then some s2.count_occupied else recFuel fuel s2 d

/-- `solve_part1`: run the driver in Adjacent mode (fuel = the
specification's generation cap 10000). -/
def solve_part1 (s : State) : Option Nat := recFuel 10000 s Depth.Next

/-- `solve_part2`: run the driver in LineOfSight mode. -/
def solve_part2 (s : State) : Option Nat := recFuel 10000 s Depth.Inf

/-- n-fold application of the generation step (generation n of a run). -/
def iterUpdate : Nat → State → Depth → State
  | 0, s, _ => s
  | n + 1, s, d => iterUpdate n (s.update d) d

/-- The example 10x10 seating layout from the tests and the specification. -/
def exampleInput : String :=
  "L.LL.LL.LL\nLLLLLLL.LL\nL.L.L..L..\nLLLL.LL.LL\nL.LL.LL.LL\nL.LLLLL.LL\n..L.L.....\nLLLLLLLLLL\nL.LLLLLL.L\nL.LLLLL.LL"

/-- Well-formedness of a state: the stored height is the number of rows and
every row within range has the stored width (as established by parsing a
rectangular layout). -/
def State.WF (s : State) : Prop :=
  s.seats.length = s.height ∧ ∀ i, i < s.height → (s.seats.getD i []).length = s.width

instance (s : State) : Decidable s.WF := by
  unfold State.WF
  infer_instance

/-- Specification vocabulary: the new value of the cell at row `y`,
column `x`, computed from the pre-update state. -/
def nextCell (s : State) (depth : Depth) (y x : Nat) : Seat :=
  s.next_seat { x := (x : Int), y := (y : Int) } depth

/-- Specification vocabulary: the cell `m` steps away from `pos` along
direction `d`. -/
def ray (pos : Position) (d : Int × Int) (m : Nat) : Position :=
  { x := pos.x + (m : Int) * d.1, y := pos.y + (m : Int) * d.2 }

/-- The continuation condition of the line-of-sight walk: the probed cell
is in bounds and is floor. -/
def State.openFloor (s : State) (p : Position) : Bool :=
  s.inBounds p.x p.y && decide (s.seatAt p.y p.x = Seat.Floor)

/-- A parse-valid 4x4 layout (a block of seats whose corners are floor)
on which the Adjacent-mode simulation oscillates with period 2 forever. -/
def oscInput : String := ".##.\n####\n####\n.##."

/-- The parsed oscillating layout: every seat occupied. -/
def oscState : State :=
  { seats := [[Seat.Floor, Seat.Occupied, Seat.Occupied, Seat.Floor],
              [Seat.Occupied, Seat.Occupied, Seat.Occupied, Seat.Occupied],
              [Seat.Occupied, Seat.Occupied, Seat.Occupied, Seat.Occupied],
              [Seat.Floor, Seat.Occupied, Seat.Occupied, Seat.Floor]],
    height := 4, width := 4, changes := 0 }

/-- The other phase of the oscillation: every seat empty (12 seats changed). -/
def oscEmpty : State :=
  { seats := [[Seat.Floor, Seat.Empty, Seat.Empty, Seat.Floor],
              [Seat.Empty, Seat.Empty, Seat.Empty, Seat.Empty],
              [Seat.Empty, Seat.Empty, Seat.Empty, Seat.Empty],
              [Seat.Floor, Seat.Empty, Seat.Empty, Seat.Floor]],
    height := 4, width := 4, changes := 12 }

/-- The occupied phase again, reached after two generations (12 changes). -/
def oscFull : State :=
  { seats := oscState.seats, height := 4, width := 4, changes := 12 }

/-!  Generic list lemmas about `getD` and `set`, used to reason about the
buffer writes of `State::update`. -/

theorem getD_set_self {α : Type} : ∀ (l : List α) (i : Nat) (a d : α),
    i < l.length → (l.set i a).getD i d = a
  | [], i, _, _, h => absurd h (by simp)
  | _ :: _, 0, _, _, _ => rfl
  | _ :: xs, i + 1, a, d, h =>
    getD_set_self xs i a d (Nat.lt_of_succ_lt_succ (by simpa using h))

theorem getD_set_ne {α : Type} : ∀ (l : List α) (i j : Nat) (a d : α),
    i ≠ j → (l.set i a).getD j d = l.getD j d
  | [], _, _, _, _, _ => rfl
  | _ :: _, 0, 0, _, _, h => absurd rfl h
  | _ :: _, 0, _ + 1, _, _, _ => rfl
  | _ :: _, _ + 1, 0, _, _, _ => rfl
  | _ :: xs, i + 1, j + 1, a, d, h =>
    getD_set_ne xs i j a d (fun hij => h (by omega))

theorem getD_of_length_le {α : Type} : ∀ (l : List α) (i : Nat) (d : α),
    l.length ≤ i → l.getD i d = d
  | [], _, _, _ => by simp [List.getD]
  | _ :: _, 0, _, h => absurd h (by simp)
  | _ :: xs, i + 1, d, h => getD_of_length_le xs i d (by simpa using h)

/-- Counting fold: the accumulator form used by `next_seat`'s direction
fold equals `countP`. -/
theorem foldl_count {α : Type} (p : α → Bool) : ∀ (l : List α) (n : Nat),
    l.foldl (fun acc a => if p a then acc + 1 else acc) n = n + l.countP p
  | [], n => by simp
  | a :: l, n => by
    by_cases h : p a <;>
        simp [List.foldl_cons, h, foldl_count p l, List.countP_cons] <;>
      omega

/-- If `f` returns `none` on some member, the whole traversal is `none`. -/
theorem traverseOpt_none {α β : Type} (f : α → Option β) :
    ∀ (l : List α) (a : α), a ∈ l → f a = none → traverseOpt f l = none := by
  intro l
  induction l with
  | nil => intro a ha; exact absurd ha (by simp)
  | cons x xs ih =>
    intro a ha hf
    rcases List.mem_cons.mp ha with rfl | hmem
    · simp [traverseOpt, hf]
    · cases hx : f x with
      | none => simp [traverseOpt, hx]
      | some b => simp [traverseOpt, hx, ih a hmem hf]

/-- Unfolding of the inner fold body in terms of `nextCell`. -/
theorem innerStep_eq (s : State) (depth : Depth) (y : Nat) (acc2 : Layout × Nat) (x : Nat) :
    s.innerStep depth y acc2 x =
      (acc2.1.set y ((acc2.1.getD y []).set x (nextCell s depth y x)),
       acc2.2 + if nextCell s depth y x ≠ (acc2.1.getD y []).getD x Seat.Floor then 1 else 0) :=
  rfl

/-- Characterization of the inner fold of `State::update` over one row:
it only touches row `y`, writes `nextCell` into the first `n` columns,
leaves the rest, and counts how many written cells differ from the old
row. All comparisons read values of the original buffer `L`. -/
theorem innerFold_spec (s : State) (depth : Depth) (y : Nat) (L : Layout) (c : Nat)
    (hy : y < L.length) :
    ∀ n, n ≤ (L.getD y []).length →
      (((List.range n).foldl (s.innerStep depth y) (L, c)).1.length = L.length) ∧
      (∀ i, i ≠ y →
        ((List.range n).foldl (s.innerStep depth y) (L, c)).1.getD i [] = L.getD i []) ∧
      ((((List.range n).foldl (s.innerStep depth y) (L, c)).1.getD y []).length
          = (L.getD y []).length) ∧
      (∀ x, n ≤ x →
        ((((List.range n).foldl (s.innerStep depth y) (L, c)).1.getD y []).getD x Seat.Floor
          = (L.getD y []).getD x Seat.Floor)) ∧
      (∀ x, x < n →
        ((((List.range n).foldl (s.innerStep depth y) (L, c)).1.getD y []).getD x Seat.Floor
          = nextCell s depth y x)) ∧
      (((List.range n).foldl (s.innerStep depth y) (L, c)).2
          = c + (List.range n).countP
              (fun x => decide (nextCell s depth y x ≠ (L.getD y []).getD x Seat.Floor))) := by
  intro n
  induction n with
  | zero =>
    intro _
    refine ⟨rfl, fun i _ => rfl, rfl, fun x _ => rfl, fun x hx => absurd hx (by omega), by simp⟩
  | succ n ih =>
    intro hn
    obtain ⟨ih1, ih2, ih3, ih4, ih5, ih6⟩ := ih (by omega)
    rw [List.range_succ, List.foldl_append, List.foldl_cons, List.foldl_nil] at *
    set prev := (List.range n).foldl (s.innerStep depth y) (L, c) with hprev
    have hylen : y < prev.1.length := ih1 ▸ hy
    have hcur : (prev.1.getD y []).getD n Seat.Floor = (L.getD y []).getD n Seat.Floor :=
      ih4 n (Nat.le_refl n)
    rw [innerStep_eq]
    refine ⟨?_, ?_, ?_, ?_, ?_, ?_⟩
    · simpa using ih1
    · intro i hi
      rw [getD_set_ne prev.1 y i _ _ (fun h => hi h.symm)]
      exact ih2 i hi
    · rw [getD_set_self prev.1 y _ _ hylen]
      simpa using ih3
    · intro x hx
      rw [getD_set_self prev.1 y _ _ hylen,
          getD_set_ne _ n x _ _ (by omega)]
      exact ih4 x (by omega)
    · intro x hx
      rw [getD_set_self prev.1 y _ _ hylen]
      rcases Nat.lt_or_ge x n with hlt | hge
      · rw [getD_set_ne _ n x _ _ (by omega)]
        exact ih5 x hlt
      · have hxn : x = n := by omega
        subst hxn
        exact getD_set_self _ x _ _ (by rw [ih3]; omega)
    · rw [List.countP_append, List.countP_cons]
      simp only [ih6, hcur]
      by_cases h : nextCell s depth y n ≠ (L.getD y []).getD n Seat.Floor <;>
        simp [h] <;> omega

/-- Characterization of the outer fold of `State::update`: after
processing the first `n` rows, those rows hold `nextCell`, the remaining
rows are untouched, all row lengths are preserved, and the change counter
is the sum of the per-row counts of differing cells — each computed
against the original grid of `s`. -/
theorem outerFold_spec (s : State) (depth : Depth) (hwf : s.WF) :
    ∀ n, n ≤ s.height →
      (((List.range n).foldl (s.outerStep depth) (s.seats, 0)).1.length = s.seats.length) ∧
      (∀ i, n ≤ i →
        ((List.range n).foldl (s.outerStep depth) (s.seats, 0)).1.getD i [] = s.seats.getD i []) ∧
      (∀ i, ((((List.range n).foldl (s.outerStep depth) (s.seats, 0)).1.getD i []).length
          = (s.seats.getD i []).length)) ∧
      (∀ i, i < n → ∀ x, x < s.width →
        ((((List.range n).foldl (s.outerStep depth) (s.seats, 0)).1.getD i []).getD x Seat.Floor
          = nextCell s depth i x)) ∧
      (((List.range n).foldl (s.outerStep depth) (s.seats, 0)).2
          = ((List.range n).map (fun i => (List.range s.width).countP
              (fun x => decide (nextCell s depth i x
                  ≠ (s.seats.getD i []).getD x Seat.Floor)))).sum) := by
  intro n
  induction n with
  | zero =>
    intro _
    exact ⟨rfl, fun i _ => rfl, fun i => rfl, fun i hi => absurd hi (by omega), by simp⟩
  | succ n ih =>
    intro hn
    obtain ⟨ih1, ih2, ih3, ih4, ih5⟩ := ih (by omega)
    rw [List.range_succ, List.foldl_append, List.foldl_cons, List.foldl_nil] at *
    set prev := (List.range n).foldl (s.outerStep depth) (s.seats, (0 : Nat)) with hprev
    have hyn : n < prev.1.length := by rw [ih1, hwf.1]; omega
    have hrow : s.width ≤ (prev.1.getD n []).length := by
      rw [ih3 n, hwf.2 n (by omega)]
    obtain ⟨i1, i2, i3, i4, i5, i6⟩ :=
      innerFold_spec s depth n prev.1 0 hyn s.width hrow
    have hrown : prev.1.getD n [] = s.seats.getD n [] := ih2 n (Nat.le_refl n)
    show _ ∧ _ ∧ _ ∧ _ ∧ _
    rw [State.outerStep]
    refine ⟨?_, ?_, ?_, ?_, ?_⟩
    · rw [i1, ih1]
    · intro i hi
      rw [i2 i (by omega)]
      exact ih2 i (by omega)
    · intro i
      rcases eq_or_ne i n with rfl | hne
      · rw [i3, ih3]
      · rw [i2 i hne, ih3]
    · intro i hi x hx
      rcases eq_or_ne i n with rfl | hne
      · exact i5 x hx
      · rw [i2 i hne]
        exact ih4 i (by omega) x hx
    · simp only [i6, ih5, hrown, List.map_append, List.sum_append]
      simp
      omega

/-- Full characterization of `State::update` on well-formed states: the
new grid holds `next_seat` values computed from the pre-update state, row
dimensions are preserved, and the change counter is the sum over rows of
the number of cells that differ from the pre-update grid. -/
theorem update_spec (s : State) (depth : Depth) (hwf : s.WF) :
    (s.update depth).seats.length = s.seats.length ∧
    (∀ i, ((s.update depth).seats.getD i []).length = (s.seats.getD i []).length) ∧
    (∀ y, y < s.height → ∀ x, x < s.width →
      (s.update depth).cellAt y x = nextCell s depth y x) ∧
    (s.update depth).changes
      = ((List.range s.height).map (fun i => (List.range s.width).countP
          (fun x => decide (nextCell s depth i x ≠ s.cellAt i x)))).sum := by
  obtain ⟨h1, h2, h3, h4, h5⟩ := outerFold_spec s depth hwf s.height (Nat.le_refl _)
  exact ⟨h1, h3, fun y hy x hx => h4 y hy x hx, h5⟩

theorem update_height (s : State) (depth : Depth) : (s.update depth).height = s.height := rfl

theorem update_width (s : State) (depth : Depth) : (s.update depth).width = s.width := rfl

theorem update_WF (s : State) (depth : Depth) (hwf : s.WF) : (s.update depth).WF := by
  obtain ⟨h1, h2, _, _⟩ := update_spec s depth hwf
  refine ⟨?_, ?_⟩
  · rw [update_height, h1, hwf.1]
  · intro i hi
    rw [h2 i, hwf.2 i (by rwa [update_height] at hi), update_width]

theorem iter_shift (n : Nat) (s : State) (depth : Depth) :
    iterUpdate (n + 1) s depth = iterUpdate n (s.update depth) depth := rfl

theorem iter_last (n : Nat) (s : State) (depth : Depth) :
    iterUpdate (n + 1) s depth = (iterUpdate n s depth).update depth := by
  induction n generalizing s with
  | zero => rfl
  | succ n ih => rw [iter_shift, ih, iter_shift]

theorem iter_height (n : Nat) (s : State) (depth : Depth) :
    (iterUpdate n s depth).height = s.height := by
  induction n generalizing s with
  | zero => rfl
  | succ n ih => rw [iter_shift, ih, update_height]

theorem iter_width (n : Nat) (s : State) (depth : Depth) :
    (iterUpdate n s depth).width = s.width := by
  induction n generalizing s with
  | zero => rfl
  | succ n ih => rw [iter_shift, ih, update_width]

theorem iter_WF (n : Nat) (s : State) (depth : Depth) (hwf : s.WF) :
    (iterUpdate n s depth).WF := by
  induction n generalizing s with
  | zero => exact hwf
  | succ n ih => rw [iter_shift]; exact ih _ (update_WF s depth hwf)

/-- Relating the two index views: `seatAt` at natural coordinates is `cellAt`. -/
theorem seatAt_natCast (s : State) (y x : Nat) :
    s.seatAt (y : Int) (x : Int) = s.cellAt y x := by
  simp [State.seatAt]

/-- A cell holding `Floor` is mapped to `Floor` by the per-cell transition. -/
theorem next_seat_floor (s : State) (pos : Position) (depth : Depth)
    (h : s.seatAt pos.y pos.x = Seat.Floor) : s.next_seat pos depth = Seat.Floor := by
  simp [State.next_seat, h]

theorem walk_succ (s : State) (dx dy : Int) (fuel : Nat) (p : Position) :
    s.walk dx dy (fuel + 1) p =
      if s.openFloor p then s.walk dx dy fuel { x := p.x + dx, y := p.y + dy } else p := rfl

theorem ray_one (pos : Position) (d : Int × Int) :
    ray pos d 1 = { x := pos.x + d.1, y := pos.y + d.2 } := by
  simp [ray]

theorem ray_succ (pos : Position) (d : Int × Int) (k : Nat) :
    ray pos d (k + 1) = { x := (ray pos d k).x + d.1, y := (ray pos d k).y + d.2 } := by
  simp only [ray, Position.mk.injEq]
  constructor <;> push_cast <;> ring

/-- The fueled walk, started `k` steps out along the ray, stops exactly at
the first index `m` whose cell fails the walk condition, provided the fuel
covers the distance. -/
theorem walk_reaches (s : State) (d : Int × Int) (pos : Position) :
    ∀ (fuel k m : Nat), k ≤ m → m < k + fuel →
      (∀ j, j < m → k ≤ j → s.openFloor (ray pos d j) = true) →
      s.openFloor (ray pos d m) = false →
      s.walk d.1 d.2 fuel (ray pos d k) = ray pos d m := by
  intro fuel
  induction fuel with
  | zero => intro k m h1 h2 _ _; omega
  | succ fuel ih =>
    intro k m h1 h2 hall hm
    rcases eq_or_ne k m with rfl | hkm
    · rw [walk_succ, hm]
      simp
    · have hk : s.openFloor (ray pos d k) = true := hall k (by omega) (Nat.le_refl k)
      rw [walk_succ, hk]
      simp only [if_true]
      rw [← ray_succ]
      exact ih (k + 1) m (by omega) (by omega) (fun j hj hkj => hall j hj (by omega)) hm

/-- Walking along a horizontal component `±1` leaves the grid within
`width + height` steps. -/
theorem exit_of_dx (s : State) (pos : Position) (dy : Int)
    (hx0 : 0 ≤ pos.x) (hxw : pos.x < (s.width : Int)) (dx : Int) (hdx : dx = 1 ∨ dx = -1) :
    ∃ m, 1 ≤ m ∧ m ≤ s.width + s.height ∧
      s.inBounds (ray pos (dx, dy) m).x (ray pos (dx, dy) m).y = false := by
  rcases hdx with rfl | rfl
  · refine ⟨s.width, by omega, by omega, ?_⟩
    cases hb : s.inBounds (ray pos (1, dy) s.width).x (ray pos (1, dy) s.width).y
    · rfl
    · exfalso
      simp [State.inBounds, ray] at hb
      omega
  · refine ⟨pos.x.toNat + 1, by omega, by omega, ?_⟩
    cases hb : s.inBounds (ray pos (-1, dy) (pos.x.toNat + 1)).x
        (ray pos (-1, dy) (pos.x.toNat + 1)).y
    · rfl
    · exfalso
      simp [State.inBounds, ray] at hb
      omega

/-- Walking along a vertical component `±1` leaves the grid within
`width + height` steps. -/
theorem exit_of_dy (s : State) (pos : Position) (dx : Int)
    (hy0 : 0 ≤ pos.y) (hyh : pos.y < (s.height : Int)) (dy : Int) (hdy : dy = 1 ∨ dy = -1) :
    ∃ m, 1 ≤ m ∧ m ≤ s.width + s.height ∧
      s.inBounds (ray pos (dx, dy) m).x (ray pos (dx, dy) m).y = false := by
  rcases hdy with rfl | rfl
  · refine ⟨s.height, by omega, by omega, ?_⟩
    cases hb : s.inBounds (ray pos (dx, 1) s.height).x (ray pos (dx, 1) s.height).y
    · rfl
    · exfalso
      simp [State.inBounds, ray] at hb
      omega
  · refine ⟨pos.y.toNat + 1, by omega, by omega, ?_⟩
    cases hb : s.inBounds (ray pos (dx, -1) (pos.y.toNat + 1)).x
        (ray pos (dx, -1) (pos.y.toNat + 1)).y
    · rfl
    · exfalso
      simp [State.inBounds, ray] at hb
      omega

/-- From an in-bounds origin, every one of the 8 compass rays leaves the
grid within `width + height` steps. -/
theorem exists_exit (s : State) (pos : Position) (hpos : s.inBounds pos.x pos.y = true)
    (d : Int × Int) (hd : d ∈ dirs) :
    ∃ m, 1 ≤ m ∧ m ≤ s.width + s.height ∧
      s.inBounds (ray pos d m).x (ray pos d m).y = false := by
  have hb : (0 ≤ pos.x ∧ pos.x < (s.width : Int)) ∧ 0 ≤ pos.y ∧ pos.y < (s.height : Int) := by
    simpa [State.inBounds, and_assoc] using hpos
  obtain ⟨⟨hx0, hxw⟩, hy0, hyh⟩ := hb
  simp only [dirs, List.mem_cons, List.not_mem_nil, or_false] at hd
  rcases hd with rfl | rfl | rfl | rfl | rfl | rfl | rfl | rfl
  · exact exit_of_dx s pos _ hx0 hxw _ (Or.inr rfl)
  · exact exit_of_dx s pos _ hx0 hxw _ (Or.inr rfl)
  · exact exit_of_dx s pos _ hx0 hxw _ (Or.inr rfl)
  · exact exit_of_dy s pos _ hy0 hyh _ (Or.inr rfl)
  · exact exit_of_dy s pos _ hy0 hyh _ (Or.inl rfl)
  · exact exit_of_dx s pos _ hx0 hxw _ (Or.inl rfl)
  · exact exit_of_dx s pos _ hx0 hxw _ (Or.inl rfl)
  · exact exit_of_dx s pos _ hx0 hxw _ (Or.inl rfl)

/-- Each compass ray from an in-bounds origin has a least index (at least
1, within the walk fuel) at which the walk condition fails, all earlier
positive indices satisfying it. -/
theorem exists_least_stop (s : State) (pos : Position)
    (hpos : s.inBounds pos.x pos.y = true) (d : Int × Int) (hd : d ∈ dirs) :
    ∃ M, 1 ≤ M ∧ M ≤ s.width + s.height ∧ s.openFloor (ray pos d M) = false ∧
      ∀ j, j < M → 1 ≤ j → s.openFloor (ray pos d j) = true := by
  obtain ⟨m, hm1, hm2, hm3⟩ := exists_exit s pos hpos d hd
  have hP : ∃ j, s.openFloor (ray pos d (j + 1)) = false := by
    refine ⟨m - 1, ?_⟩
    have hm : m - 1 + 1 = m := by omega
    rw [hm]
    simp [State.openFloor, hm3]
  refine ⟨Nat.find hP + 1, by omega, ?_, Nat.find_spec hP, ?_⟩
  · have : Nat.find hP ≤ m - 1 := Nat.find_min' hP (by
      have hm : m - 1 + 1 = m := by omega
      rw [hm]
      simp [State.openFloor, hm3])
    omega
  · intro j hj h1j
    have hlt : j - 1 < Nat.find hP := by omega
    have := Nat.find_min hP hlt
    have hj1 : j - 1 + 1 = j := by omega
    rw [hj1] at this
    exact Bool.not_eq_false _ |>.mp this

/-- In Adjacent mode a direction contributes iff the cell exactly one step
away is in bounds and occupied. -/
theorem dirContrib_next_iff (s : State) (pos : Position) (d : Int × Int) :
    s.dirContrib pos Depth.Next d = true ↔
      s.inBounds (pos.x + d.1) (pos.y + d.2) = true ∧
      s.seatAt (pos.y + d.2) (pos.x + d.1) = Seat.Occupied := by
  simp [State.dirContrib, State.probe]

/-- In LineOfSight mode a direction contributes iff some cell along the
ray is in bounds and occupied while every earlier cell on the ray is
in-bounds floor (i.e. the first non-floor cell met inside the grid is
occupied; a ray leaving the grid first contributes nothing). -/
theorem dirContrib_inf_iff (s : State) (pos : Position)
    (hpos : s.inBounds pos.x pos.y = true) (d : Int × Int) (hd : d ∈ dirs) :
    (s.dirContrib pos Depth.Inf d = true ↔
      ∃ m, 1 ≤ m ∧ s.inBounds (ray pos d m).x (ray pos d m).y = true ∧
        s.seatAt (ray pos d m).y (ray pos d m).x = Seat.Occupied ∧
        ∀ j, j < m → 1 ≤ j →
          s.inBounds (ray pos d j).x (ray pos d j).y = true ∧
          s.seatAt (ray pos d j).y (ray pos d j).x = Seat.Floor) := by
  obtain ⟨M, hM1, hM2, hMf, hMmin⟩ := exists_least_stop s pos hpos d hd
  have hwalk : s.walk d.1 d.2 (s.width + s.height) (ray pos d 1) = ray pos d M :=
    walk_reaches s d pos (s.width + s.height) 1 M hM1 (by omega)
      (fun j hj h1j => hMmin j hj h1j) hMf
  have hcontrib : s.dirContrib pos Depth.Inf d =
      (s.inBounds (ray pos d M).x (ray pos d M).y &&
        decide (s.seatAt (ray pos d M).y (ray pos d M).x = Seat.Occupied)) := by
    simp only [State.dirContrib, State.probe]
    rw [← ray_one pos d]
    simp only [hwalk]
  constructor
  · intro h
    rw [hcontrib] at h
    simp only [Bool.and_eq_true, decide_eq_true_eq] at h
    refine ⟨M, hM1, h.1, h.2, ?_⟩
    intro j hj h1j
    have hcond := hMmin j hj h1j
    simpa [State.openFloor, Bool.and_eq_true, decide_eq_true_eq] using hcond
  · rintro ⟨m, hm1, hmin, hmocc, hall⟩
    have hmfalse : s.openFloor (ray pos d m) = false := by
      simp [State.openFloor, hmocc]
    have hmM : m = M := by
      by_contra hne
      rcases Nat.lt_or_ge m M with hlt | hge
      · have hcond := hMmin m hlt hm1
        rw [hmfalse] at hcond
        exact absurd hcond (by simp)
      · have hMm : M < m := by omega
        have hMfloor := hall M hMm hM1
        have hopen : s.openFloor (ray pos d M) = true := by
          simp [State.openFloor, hMfloor.1, hMfloor.2]
        rw [hMf] at hopen
        exact absurd hopen (by simp)
    subst hmM
    rw [hcontrib]
    simp [hmin, hmocc]

/-- One generation of the oscillating layout: every occupied seat has at
least four occupied neighbours, so all 12 seats vacate. -/
theorem osc_step1 : oscState.update Depth.Next = oscEmpty := by decide

/-- Next generation: every empty seat has zero occupied neighbours, so all
12 seats become occupied again. -/
theorem osc_step2 : oscEmpty.update Depth.Next = oscFull := by decide

/-- The occupied phase steps back to the empty phase. -/
theorem osc_step3 : oscFull.update Depth.Next = oscEmpty := by decide

/-- Every generation of the oscillating layout is one of the two phases,
each of which records 12 changed cells. -/
theorem osc_alternates (k : Nat) :
    iterUpdate (k + 1) oscState Depth.Next = oscEmpty ∨
    iterUpdate (k + 1) oscState Depth.Next = oscFull := by
  induction k with
  | zero =>
    left
    have h : iterUpdate 1 oscState Depth.Next = oscState.update Depth.Next := rfl
    rw [h, osc_step1]
  | succ k ih =>
    rw [iter_last]
    rcases ih with h | h <;> rw [h]
    · right
      exact osc_step2
    · left
      exact osc_step3

/-- Demonstration states used to instantiate theorems with hypotheses. -/
def demo12 : State := { seats := [[Seat.Empty, Seat.Occupied]], height := 1, width := 2, changes := 0 }

def demo11 : State := { seats := [[Seat.Empty]], height := 1, width := 1, changes := 0 }

def demoLos : State :=
  { seats := [[Seat.Occupied, Seat.Floor, Seat.Empty]], height := 1, width := 3, changes := 0 }

/-- Evaluation of the full pipeline on the example layout, Adjacent mode. -/
theorem eval_example_part1 : (gen exampleInput).bind solve_part1 = some 37 := by decide

/-- Evaluation of the full pipeline on the example layout, LineOfSight mode. -/
theorem eval_example_part2 : (gen exampleInput).bind solve_part2 = some 26 := by decide

/-- C5: the fixed-point driver `rec`, for any initial grid and rule mode,
repeatedly applies the generation step, stops exactly at the first
generation whose change count is 0, and returns the number of occupied
cells of that final (stable) grid. -/
theorem rec_fixed_point_driver (f : Nat) (s : State) (depth : Depth) (n : Nat) :
    recFuel f s depth = some n ↔
      ∃ k, k < f ∧ (∀ j, j < k → (iterUpdate (j + 1) s depth).changes ≠ 0) ∧
        (iterUpdate (k + 1) s depth).changes = 0 ∧
        n = (iterUpdate (k + 1) s depth).count_occupied := by
  induction f generalizing s with
  | zero =>
    constructor
    · intro h
      simp [recFuel] at h
    · rintro ⟨k, hk, -⟩
      omega
  | succ f ih =>
    have hrec : recFuel (f + 1) s depth =
        (if (s.update depth).changes = 0 then some (s.update depth).count_occupied
         else recFuel f (s.update depth) depth) := rfl
    rw [hrec]
    by_cases h : (s.update depth).changes = 0
    · rw [if_pos h]
      constructor
      · intro hsome
        refine ⟨0, by omega, by intro j hj; omega, h, (Option.some.inj hsome).symm⟩
      · rintro ⟨k, hk, hprev, hzero, hn⟩
        cases k with
        | zero => rw [hn]; rfl
        | succ k => exact absurd h (hprev 0 (by omega))
    · rw [if_neg h]
      rw [ih (s.update depth)]
      constructor
      · rintro ⟨k, hk, hprev, hzero, hn⟩
        refine ⟨k + 1, by omega, ?_, hzero, hn⟩
        intro j hj
        cases j with
        | zero => exact h
        | succ j => exact hprev j (by omega)
      · rintro ⟨k, hk, hprev, hzero, hn⟩
        cases k with
        | zero => exact absurd hzero h
        | succ k =>
          refine ⟨k, by omega, ?_, hzero, hn⟩
          intro j hj
          exact hprev (j + 1) (by omega)

/-- Witness for C5: on the 1x1 grid holding an empty seat, the driver with
fuel 3 stops after the second generation (the first stable one) and
reports one occupied seat. -/
theorem rec_fixed_point_driver_witness :
    ∃ k, k < 3 ∧ (∀ j, j < k → (iterUpdate (j + 1) demo11 Depth.Next).changes ≠ 0) ∧
      (iterUpdate (k + 1) demo11 Depth.Next).changes = 0 ∧
      1 = (iterUpdate (k + 1) demo11 Depth.Next).count_occupied :=
  (rec_fixed_point_driver 3 demo11 Depth.Next 1).mp (by decide)

/-- C1: on the 10x10 example layout of the specification, the full
pipeline (parse, iterate to the fixed point, count occupied) yields 37
occupied seats in Adjacent mode and 26 in LineOfSight mode. -/
theorem example_pipeline_results :
    (gen exampleInput).bind solve_part1 = some 37 ∧
    (gen exampleInput).bind solve_part2 = some 26 :=
  ⟨eval_example_part1, eval_example_part2⟩

/-- C2: for every grid, coordinate and rule mode, the per-cell transition
turns an empty seat with neighbour count 0 into an occupied one, vacates
an occupied seat whose neighbour count reaches the mode's threshold
(4 for Adjacent, 5 for LineOfSight), and otherwise leaves the cell
unchanged (floor in particular always stays floor). -/
theorem next_seat_transition_rule (s : State) (pos : Position) (dep : Depth) :
    Depth.cond Depth.Next = 4 ∧ Depth.cond Depth.Inf = 5 ∧
    (s.seatAt pos.y pos.x = Seat.Empty → s.countOccAround pos dep = 0 →
      s.next_seat pos dep = Seat.Occupied) ∧
    (s.seatAt pos.y pos.x = Seat.Empty → s.countOccAround pos dep ≠ 0 →
      s.next_seat pos dep = s.seatAt pos.y pos.x) ∧
    (s.seatAt pos.y pos.x = Seat.Occupied → dep.cond ≤ s.countOccAround pos dep →
      s.next_seat pos dep = Seat.Empty) ∧
    (s.seatAt pos.y pos.x = Seat.Occupied → s.countOccAround pos dep < dep.cond →
      s.next_seat pos dep = s.seatAt pos.y pos.x) ∧
    (s.seatAt pos.y pos.x = Seat.Floor → s.next_seat pos dep = s.seatAt pos.y pos.x) := by
  refine ⟨rfl, rfl, ?_, ?_, ?_, ?_, ?_⟩ <;> intro h
  · intro h0
    simp [State.next_seat, h, h0]
  · intro hne
    simp [State.next_seat, h, hne]
  · intro hge
    simp [State.next_seat, h, hge]
  · intro hlt
    have h4 : ¬ dep.cond ≤ s.countOccAround pos dep := by omega
    simp [State.next_seat, h, h4]
  · simp [State.next_seat, h]

/-- Witness for C2: an empty seat next to an occupied one keeps its value. -/
theorem next_seat_transition_rule_witness :
    demo12.next_seat { x := 0, y := 0 } Depth.Next =
      demo12.seatAt (Position.mk 0 0).y (Position.mk 0 0).x :=
  (next_seat_transition_rule demo12 { x := 0, y := 0 } Depth.Next).2.2.2.1
    (by decide) (by decide)

/-- C3: the neighbour count folds over exactly the 8 compass directions;
in Adjacent mode a direction contributes iff the cell one step away is in
bounds and occupied; in LineOfSight mode (from an in-bounds origin) a
direction contributes iff the first non-floor cell along its ray inside
the grid exists and is occupied, all earlier ray cells being in-bounds
floor. -/
theorem neighbor_count_modes (s : State) (pos : Position) :
    dirs.length = 8 ∧
    (∀ dep, s.countOccAround pos dep = dirs.countP (s.dirContrib pos dep)) ∧
    (∀ d : Int × Int, s.dirContrib pos Depth.Next d = true ↔
        s.inBounds (pos.x + d.1) (pos.y + d.2) = true ∧
        s.seatAt (pos.y + d.2) (pos.x + d.1) = Seat.Occupied) ∧
    (s.inBounds pos.x pos.y = true → ∀ d ∈ dirs,
      (s.dirContrib pos Depth.Inf d = true ↔
        ∃ m, 1 ≤ m ∧ s.inBounds (ray pos d m).x (ray pos d m).y = true ∧
          s.seatAt (ray pos d m).y (ray pos d m).x = Seat.Occupied ∧
          ∀ j, j < m → 1 ≤ j →
            s.inBounds (ray pos d j).x (ray pos d j).y = true ∧
            s.seatAt (ray pos d j).y (ray pos d j).x = Seat.Floor)) := by
  refine ⟨rfl, ?_, fun d => dirContrib_next_iff s pos d,
    fun hpos d hd => dirContrib_inf_iff s pos hpos d hd⟩
  intro dep
  simpa [State.countOccAround] using foldl_count (s.dirContrib pos dep) dirs 0

/-- Witness for C3: in the row `#.L`, looking left from the empty seat
skips the floor cell and sees the occupied seat two steps away. -/
theorem neighbor_count_modes_witness :
    demoLos.dirContrib { x := 2, y := 0 } Depth.Inf (-1, 0) = true :=
  ((neighbor_count_modes demoLos { x := 2, y := 0 }).2.2.2 (by decide) (-1, 0)
      (by decide)).mpr
    ⟨2, by decide, by decide, by decide, by decide⟩

/-- C4: the generation step is synchronous — every new cell equals
`next_seat` computed from the pre-update state only — and its change count
is the number of coordinates where the new grid differs from the old. -/
theorem update_synchronous (s : State) (depth : Depth) (hwf : s.WF) :
    (∀ y, y < s.height → ∀ x, x < s.width →
      (s.update depth).cellAt y x = s.next_seat { x := (x : Int), y := (y : Int) } depth) ∧
    (s.update depth).changes
      = ((List.range s.height).map (fun y => (List.range s.width).countP
          (fun x => decide ((s.update depth).cellAt y x ≠ s.cellAt y x)))).sum := by
  obtain ⟨h1, h2, h3, h4⟩ := update_spec s depth hwf
  refine ⟨h3, ?_⟩
  rw [h4]
  apply congrArg List.sum
  apply List.map_congr_left
  intro y hy
  apply List.countP_congr
  intro x hx
  have hcell := h3 y (List.mem_range.mp hy) x (List.mem_range.mp hx)
  rw [hcell]

/-- Witness for C4 at the oscillating layout (first generation, Adjacent). -/
theorem update_synchronous_witness :
    (∀ y, y < oscState.height → ∀ x, x < oscState.width →
      (oscState.update Depth.Next).cellAt y x
        = oscState.next_seat { x := (x : Int), y := (y : Int) } Depth.Next) ∧
    (oscState.update Depth.Next).changes
      = ((List.range oscState.height).map (fun y => (List.range oscState.width).countP
          (fun x => decide ((oscState.update Depth.Next).cellAt y x
              ≠ oscState.cellAt y x)))).sum :=
  update_synchronous oscState Depth.Next (by decide)

/-- C6: a coordinate holding floor in the initial grid holds floor after
every number of generations, in both rule modes. -/
theorem floor_monotone_invariance (s : State) (depth : Depth) (hwf : s.WF) (n : Nat)
    (y x : Nat) (hy : y < s.height) (hx : x < s.width)
    (hf : s.cellAt y x = Seat.Floor) :
    (iterUpdate n s depth).cellAt y x = Seat.Floor := by
  induction n with
  | zero => exact hf
  | succ n ih =>
    rw [iter_last]
    have hwf' : (iterUpdate n s depth).WF := iter_WF n s depth hwf
    have hcell := (update_spec (iterUpdate n s depth) depth hwf').2.2.1 y
      (by rwa [iter_height]) x (by rwa [iter_width])
    rw [hcell, nextCell]
    apply next_seat_floor
    show (iterUpdate n s depth).seatAt (y : Int) (x : Int) = Seat.Floor
    rw [seatAt_natCast]
    exact ih

/-- Witness for C6: the corner floor cell of the oscillating layout is
still floor after five generations. -/
theorem floor_monotone_invariance_witness :
    (iterUpdate 5 oscState Depth.Next).cellAt 0 0 = Seat.Floor :=
  floor_monotone_invariance oscState Depth.Next (by decide) 5 0 0
    (by decide) (by decide) (by decide)

/-- C7 counterexample: the 4x4 seating layout `.##. / #### / #### / .##.`
is parse-valid, yet under Adjacent mode the iteration never reaches a
generation with change count 0 — it oscillates between the all-empty and
all-occupied phases forever, so the claim that the driver terminates for
every parse-valid layout is false. -/
theorem convergence_counterexample :
    gen oscInput = some oscState ∧
    ¬ ∃ k : Nat, (iterUpdate (k + 1) oscState Depth.Next).changes = 0 := by
  refine ⟨by decide, ?_⟩
  rintro ⟨k, hk⟩
  rcases osc_alternates k with h | h <;> rw [h] at hk <;> exact absurd hk (by decide)

/-- C7 amended: the driver need not terminate for every parse-valid
layout; for the specification's 10x10 example layout it does terminate,
in both rule modes, within the specification's generation cap of 10000. -/
theorem convergence_amended :
    (∃ n, (gen exampleInput).bind solve_part1 = some n) ∧
    (∃ n, (gen exampleInput).bind solve_part2 = some n) :=
  ⟨⟨37, eval_example_part1⟩, ⟨26, eval_example_part2⟩⟩

/-- C8: the parser maps the three alphabet characters to their cells,
aborts (modelled as `none`) on every other character, and any line of the
(trimmed) input containing such a character makes the whole parse abort —
no unknown character is ever coerced into a cell. -/
theorem parser_character_mapping :
    Seat.fromChar '.' = some Seat.Floor ∧
    Seat.fromChar 'L' = some Seat.Empty ∧
    Seat.fromChar '#' = some Seat.Occupied ∧
    (∀ c : Char, c ≠ '.' → c ≠ 'L' → c ≠ '#' → Seat.fromChar c = none) ∧
    (∀ input : String, ∀ line ∈ rustLines input.data, ∀ c ∈ trimChars line,
        Seat.fromChar c = none → gen input = none) := by
  refine ⟨rfl, rfl, rfl, ?_, ?_⟩
  · intro c h1 h2 h3
    unfold Seat.fromChar
    split <;> simp_all
  · intro input line hline c hc hnone
    have h1 : traverseOpt Seat.fromChar (trimChars line) = none :=
      traverseOpt_none _ _ c hc hnone
    have h2 : traverseOpt (fun l => traverseOpt Seat.fromChar (trimChars l))
        (rustLines input.data) = none :=
      traverseOpt_none _ _ line hline h1
    simp [gen, h2]

/-- Witness for C8: the character X is rejected. -/
theorem parser_character_mapping_witness : Seat.fromChar 'X' = none :=
  parser_character_mapping.2.2.2.1 'X' (by decide) (by decide) (by decide)

/-- C9 counterexample: input whose two lines have lengths 1 and 2 parses
successfully into a grid (width taken from the first line), instead of
failing with an inconsistent-width error. -/
theorem parser_ragged_counterexample :
    gen "L\nLL" = some (State.mk [[Seat.Empty], [Seat.Empty, Seat.Empty]] 2 1 0) := by
  decide

/-- C9 amended: empty input makes the parser abort (no grid is produced),
but unequal line lengths are not detected: parsing returns a grid whose
width is the first line's length. -/
theorem parser_malformed_amended :
    gen "" = none ∧ (gen "L\nLL").map State.width = some 1 :=
  ⟨by decide, by decide⟩

/-- C10: the per-cell transition never produces floor from a seat, and
together with floor invariance the floor set is exactly preserved by every
generation step. -/
theorem floor_set_preserved (s : State) (depth : Depth) (hwf : s.WF) :
    (∀ pos : Position, s.seatAt pos.y pos.x ≠ Seat.Floor →
      s.next_seat pos depth ≠ Seat.Floor) ∧
    (∀ y x : Nat, y < s.height → x < s.width →
      ((s.update depth).cellAt y x = Seat.Floor ↔ s.cellAt y x = Seat.Floor)) := by
  have hseat : ∀ pos : Position, s.seatAt pos.y pos.x ≠ Seat.Floor →
      s.next_seat pos depth ≠ Seat.Floor := by
    intro pos hne
    cases h : s.seatAt pos.y pos.x with
    | Floor => exact absurd h hne
    | Empty => simp only [State.next_seat, h]; split <;> simp
    | Occupied => simp only [State.next_seat, h]; split <;> simp
  refine ⟨hseat, ?_⟩
  intro y x hy hx
  have hcell := (update_spec s depth hwf).2.2.1 y hy x hx
  rw [hcell, nextCell]
  constructor
  · intro hfl
    by_contra hne
    have hne' : s.seatAt ((y : Nat) : Int) ((x : Nat) : Int) ≠ Seat.Floor := by
      rw [seatAt_natCast]; exact hne
    exact hseat { x := (x : Int), y := (y : Int) } hne' hfl
  · intro hfl
    apply next_seat_floor
    show s.seatAt (y : Int) (x : Int) = Seat.Floor
    rw [seatAt_natCast]
    exact hfl

/-- Witness for C10: the corner floor cell of the oscillating layout stays
floor across one generation step. -/
theorem floor_set_preserved_witness :
    (oscState.update Depth.Next).cellAt 0 0 = Seat.Floor ↔
      oscState.cellAt 0 0 = Seat.Floor :=
  (floor_set_preserved oscState Depth.Next (by decide)).2 0 0 (by decide) (by decide)

end Day11
